import Mathlib

/-!
# Verification of the propos4l processing pipeline

Shallow embedding of the parts of the repository referenced by the claims:

* `src/backend/app/services/processing_status.py` — `ProcessingStatus`,
  `ProcessingStep`, `ProcessingTracker` (progress state machine);
* `src/backend/app/core/optimization.py` — `BatchProcessor.process_batch`
  with `_retry_failed_items` / `_handle_error`, `CacheManager.get/set` with
  `_evict_lru`, `DatasetOptimizer.chunk_dataset` (size strategy) and
  `DatasetOptimizer.process_chunks`;
* `src/backend/app/services/pdf_processor.py` — the executed code path of
  `PDFProcessor.process_pdf`.

Modelling conventions:

* Python `float` percentages are modelled as `ℚ`; `round(x, 1)` is modelled
  as rounding `10 * x` to the nearest integer and dividing by `10`
  (Mathlib's `round`, which rounds half up, while Python rounds half to
  even; every concrete value appearing in the theorems below is an exact
  multiple of `1/10`, where the two conventions agree, and the monotonicity
  arguments hold for any monotone rounding).
* `datetime.now()` is modelled by an explicit `now : Nat` argument (tracker
  operations) or by a strictly increasing logical clock (cache), reflecting
  that successive wall-clock reads are monotone.
* Raised exceptions are modelled with `Except String`; a Python function
  that cannot raise is modelled as a total function.
* `await`/`async` and subscriber notification queues are irrelevant to the
  claims about tracker state: `_notify_subscribers` only reads the state,
  so it is omitted from the state-transition model.
-/

namespace Propos4l

/-- Python list indexing `xs[i]` for `i : Int`: nonnegative indices below the
length are used directly, negative indices count from the end
(`xs[-1]` is the last element), anything else raises `IndexError`
(modelled by `none`). -/
def pyIndex (i : Int) (len : Nat) : Option Nat :=
  if 0 ≤ i then (if i < (len : Int) then some i.toNat else none)
  else if 0 ≤ (len : Int) + i then some ((len : Int) + i).toNat else none

/-- In-place update of the element at position `p` (`xs[p] = f xs[p]`);
out-of-range positions leave the list unchanged. -/
def listModify (f : α → α) : Nat → List α → List α
  | _, [] => []
  | 0, a :: l => f a :: l
  | n + 1, a :: l => a :: listModify f n l

/-- Model of `results[i] = v` on a Python list. -/
def listSet (l : List α) (i : Nat) (v : α) : List α :=
  listModify (fun _ => v) i l

/-- Model of Python `round(x, 1)` (round to one decimal place). -/
def round1 (x : ℚ) : ℚ := ((round (10 * x) : ℤ) : ℚ) / 10

/-- Python's builtin `min(a, b)`: `a` when `a <= b`, otherwise `b`. -/
def pymin (a b : ℚ) : ℚ := if a ≤ b then a else b

/-! ## processing_status.py : ProcessingStatus / ProcessingStep -/

/-- Model of `ProcessingStatus` string constants (`processing_status.py` lines 7-12). -/
inductive ProcessingStatus where
  | waiting
  | processing
  | success
  | error
  | skipped
deriving DecidableEq

/-- Model of `ProcessingStep` (`processing_status.py` lines 21-37).  `id`, `name`,
`description` and `percentage_of_total` are set at construction; the rest
start at their `__init__` defaults. -/
structure ProcessingStep where
  id : String
  name : String
  description : String
  percentageOfTotal : ℚ
  status : ProcessingStatus := .waiting
  details : Option String := none
  startTime : Option Nat := none
  endTime : Option Nat := none
  error : Option String := none
deriving DecidableEq

namespace ProcessingStep

/-- Model of `ProcessingStep.start` (lines 52-56).  Python only overwrites `details`
when the argument is truthy; passing `none` models the default `None`. -/
def start (now : Nat) (details : Option String) (s : ProcessingStep) : ProcessingStep :=
  { s with status := .processing, startTime := some now,
           details := match details with | some d => some d | none => s.details }

/-- Model of `ProcessingStep.complete` (lines 58-62). -/
def complete (now : Nat) (details : Option String) (s : ProcessingStep) : ProcessingStep :=
  { s with status := .success, endTime := some now,
           details := match details with | some d => some d | none => s.details }

/-- Model of `ProcessingStep.fail` (lines 64-69). -/
def fail (now : Nat) (err : String) (details : Option String) (s : ProcessingStep) :
    ProcessingStep :=
  { s with status := .error, endTime := some now, error := some err,
           details := match details with | some d => some d | none => s.details }

/-- Model of `ProcessingStep.skip` (lines 71-75). -/
def skip (now : Nat) (reason : Option String) (s : ProcessingStep) : ProcessingStep :=
  { s with status := .skipped, endTime := some now,
           details := match reason with | some r => some r | none => s.details }

/-- The summand contributed by the current step inside `_update_progress`
(lines 146-154): full weight for `success`/`skipped`, half for
`processing`, nothing for `waiting`/`error`. -/
def contribution (s : ProcessingStep) : ℚ :=
  match s.status with
  | .success => s.percentageOfTotal
  | .processing => s.percentageOfTotal / 2
  | .skipped => s.percentageOfTotal
  | _ => 0

end ProcessingStep

/-! ## processing_status.py : ProcessingTracker -/

/-- Model of `ProcessingTracker` mutable state (`processing_status.py` lines 78-88).
The `id` (uuid) and the `subscribers` set are omitted: subscribers only
receive read-only snapshots and never influence the state transitions. -/
structure ProcessingTracker where
  fileName : String
  steps : List ProcessingStep
  currentStepIndex : Int
  overallProgress : ℚ
  startTime : Nat
  endTime : Option Nat
  isComplete : Bool
deriving DecidableEq

/-- Model of `ProcessingTracker.__init__` (lines 79-88). -/
def mkTracker (fileName : String) (now : Nat) : ProcessingTracker :=
  { fileName := fileName, steps := [], currentStepIndex := -1, overallProgress := 0,
    startTime := now, endTime := none, isComplete := false }

namespace ProcessingTracker

/-- Model of `completed_percentage` accumulated by the loop of `_update_progress`
(lines 140-155), as a function of the step list and the current index:
position `i` contributes its full weight when `i < current`, its
status-dependent `contribution` when `i = current`, and nothing
otherwise.  `i` is the running position of the head of the list. -/
def cpAux (k : Int) : Nat → List ProcessingStep → ℚ
  | _, [] => 0
  | i, s :: rest =>
      (if (i : Int) < k then s.percentageOfTotal
       else if (i : Int) = k then s.contribution else 0) + cpAux k (i + 1) rest

/-- The value of `completed_percentage` for a tracker. -/
def completedPercentage (t : ProcessingTracker) : ℚ :=
  cpAux t.currentStepIndex 0 t.steps

/-- Model of `_update_progress` (lines 140-157):
`overall_progress = min(round(completed_percentage, 1), 100)`. -/
def updateProgress (t : ProcessingTracker) : ProcessingTracker :=
  { t with overallProgress := pymin (round1 (completedPercentage t)) 100 }

/-- Model of `add_step` (lines 90-96): appends a waiting step with id
`step_<position>`. -/
def addStep (name description : String) (w : ℚ) (t : ProcessingTracker) : ProcessingTracker :=
  { t with steps := t.steps ++
      [{ id := "step_" ++ toString t.steps.length, name := name,
         description := description, percentageOfTotal := w }] }

/-- Model of `get_current_step` (lines 98-101): this accessor checks both bounds
(`0 <= current_step_index < len(steps)`), unlike the step-transition
methods below. -/
def getCurrentStep (t : ProcessingTracker) : Option ProcessingStep :=
  if h : 0 ≤ t.currentStepIndex ∧ t.currentStepIndex < (t.steps.length : Int) then
    some (t.steps.get ⟨t.currentStepIndex.toNat, by omega⟩)
  else none

/-- Model of `start_next_step` (lines 103-111): increments `current_step_index`
first; if the new index is below `len(steps)` the (new) current step is
started and progress recomputed, otherwise the method returns `None`
leaving only the incremented index behind. -/
def startNextStep (now : Nat) (details : Option String) (t : ProcessingTracker) :
    Except String ProcessingTracker :=
  let idx := t.currentStepIndex + 1
  let t1 := { t with currentStepIndex := idx }
  if idx < (t1.steps.length : Int) then
    match pyIndex idx t1.steps.length with
    | none => .error "IndexError: list index out of range"
    | some p =>
        .ok (updateProgress
          { t1 with steps := listModify (ProcessingStep.start now details) p t1.steps })
  else .ok t1

/-- Common shape of `complete_current_step` / `fail_current_step` /
`skip_current_step` (lines 113-132): guarded only by
`current_step_index < len(steps)` — the missing lower bound means that at
index `-1` the Python negative-index access `steps[-1]` mutates the LAST
step (or raises `IndexError` when the list is empty). -/
def terminalStepOp (g : ProcessingStep → ProcessingStep) (t : ProcessingTracker) :
    Except String ProcessingTracker :=
  if t.currentStepIndex < (t.steps.length : Int) then
    match pyIndex t.currentStepIndex t.steps.length with
    | none => .error "IndexError: list index out of range"
    | some p => .ok (updateProgress { t with steps := listModify g p t.steps })
  else .ok t

/-- Model of `complete_current_step` (lines 113-118). -/
def completeCurrentStep (now : Nat) (details : Option String) (t : ProcessingTracker) :
    Except String ProcessingTracker :=
  terminalStepOp (ProcessingStep.complete now details) t

/-- Model of `fail_current_step` (lines 120-125). -/
def failCurrentStep (now : Nat) (err : String) (details : Option String)
    (t : ProcessingTracker) : Except String ProcessingTracker :=
  terminalStepOp (ProcessingStep.fail now err details) t

/-- Model of `skip_current_step` (lines 127-132). -/
def skipCurrentStep (now : Nat) (reason : Option String) (t : ProcessingTracker) :
    Except String ProcessingTracker :=
  terminalStepOp (ProcessingStep.skip now reason) t

/-- Model of `complete_processing` (lines 134-138): sets `is_complete`, `end_time`
and forces `overall_progress = 100`; it does not touch the steps. -/
def completeProcessing (now : Nat) (t : ProcessingTracker) : ProcessingTracker :=
  { t with isComplete := true, endTime := some now, overallProgress := 100 }

end ProcessingTracker

/-- The tracker operations named by the claims, as one alphabet of events. -/
inductive TOp where
  | addStep (name description : String) (w : ℚ)
  | startNext (now : Nat) (details : Option String)
  | completeCur (now : Nat) (details : Option String)
  | failCur (now : Nat) (err : String) (details : Option String)
  | skipCur (now : Nat) (reason : Option String)
  | completeProc (now : Nat)
deriving DecidableEq

/-- Dispatch one operation on a tracker. -/
def execOp : TOp → ProcessingTracker → Except String ProcessingTracker
  | .addStep name description w, t => .ok (t.addStep name description w)
  | .startNext now details, t => t.startNextStep now details
  | .completeCur now details, t => t.completeCurrentStep now details
  | .failCur now err details, t => t.failCurrentStep now err details
  | .skipCur now reason, t => t.skipCurrentStep now reason
  | .completeProc now, t => .ok (t.completeProcessing now)

/-- Run a sequence of operations; a raised exception aborts the run. -/
def runOps (ops : List TOp) (t : ProcessingTracker) : Except String ProcessingTracker :=
  ops.foldlM (fun t op => execOp op t) t

/-! ## Tracker snapshots (`to_dict`, lines 159-170) -/

/-- The part of the `to_dict` snapshot that the claims talk about: the
ordered step statuses, the current step id, the overall progress and the
completion flag. -/
structure TrackerSnapshot where
  fileName : String
  stepStatuses : List ProcessingStatus
  currentStepId : Option String
  overallProgress : ℚ
  isComplete : Bool
deriving DecidableEq

/-- Model of `to_dict` (lines 159-170), restricted to the fields above; this is the
snapshot `_notify_subscribers` delivers to every subscriber. -/
def toSnapshot (t : ProcessingTracker) : TrackerSnapshot :=
  { fileName := t.fileName,
    stepStatuses := t.steps.map (fun s => s.status),
    currentStepId := (t.getCurrentStep).map (fun s => s.id),
    overallProgress := t.overallProgress,
    isComplete := t.isComplete }

/-- A concrete tracker mid-run: one step still `processing`, one `waiting`. -/
def frameTracker : ProcessingTracker :=
  { fileName := "a.pdf",
    steps := [{ id := "step_0", name := "Text Extraction", description := "extract",
                percentageOfTotal := 25, status := .processing, startTime := some 1 },
              { id := "step_1", name := "Section Identification", description := "classify",
                percentageOfTotal := 20 }],
    currentStepIndex := 0, overallProgress := 25 / 2, startTime := 0,
    endTime := none, isComplete := false }

/-- A run whose step weights sum to 150 (80 + 70), driving both steps to
completion: the clamped progress is exactly 100 before `complete_processing`
is even called. -/
def overweightOps : List TOp :=
  [.addStep "Text Extraction" "extract" 80, .addStep "Section Identification" "classify" 70,
   .startNext 0 none, .completeCur 1 none, .startNext 2 none, .completeCur 3 none]

/-- The tracker reached by `overweightOps`. -/
def overweightTracker : ProcessingTracker :=
  { fileName := "a.pdf",
    steps := [⟨"step_0", "Text Extraction", "extract", 80, .success, none, some 0, some 1, none⟩,
              ⟨"step_1", "Section Identification", "classify", 70, .success, none, some 2,
               some 3, none⟩],
    currentStepIndex := 1, overallProgress := 100, startTime := 0,
    endTime := none, isComplete := false }

/-- The inductive invariant for the monotonicity argument: all recorded
weights are nonnegative, progress is nonnegative, progress is at most the
value `_update_progress` would currently compute, and the index never went
below its initial `-1`. -/
def ProgressInv (t : ProcessingTracker) : Prop :=
  (∀ s ∈ t.steps, 0 ≤ s.percentageOfTotal) ∧
  0 ≤ t.overallProgress ∧
  t.overallProgress ≤ pymin (round1 (ProcessingTracker.completedPercentage t)) 100 ∧
  -1 ≤ t.currentStepIndex

instance (t : ProcessingTracker) : Decidable (ProgressInv t) := by
  unfold ProgressInv
  infer_instance

/-- The operations covered by the amended monotonicity claim: everything
except `fail_current_step` and `complete_processing`, with nonnegative
weights for `add_step`. -/
def BasicOp : TOp → Prop
  | .addStep _ _ w => 0 ≤ w
  | .startNext _ _ => True
  | .completeCur _ _ => True
  | .failCur _ _ _ => False
  | .skipCur _ _ => True
  | .completeProc _ => False

instance : DecidablePred BasicOp := by
  intro op
  unfold BasicOp
  cases op <;> infer_instance

/-- The fail-free run used as the witness: add one step of weight 25, start
it, complete it. -/
def monotoneOpsW : List TOp :=
  [.addStep "Text Extraction" "extract" 25, .startNext 0 none, .completeCur 1 none]

/-- The tracker reached by `monotoneOpsW`. -/
def monotoneTrackerW : ProcessingTracker :=
  { fileName := "a.pdf",
    steps := [⟨"step_0", "Text Extraction", "extract", 25, .success, none, some 0,
               some 1, none⟩],
    currentStepIndex := 0, overallProgress := 25, startTime := 0,
    endTime := none, isComplete := false }

/-! ## optimization.py : BatchProcessor (`process_batch`, `_retry_failed_items`,
`_handle_error`, lines 66-175)

The per-item function is modelled as `f : T → Nat → Except String U`: the
second argument is the `attempts` counter the code threads through its
retry tuples (`0` for the initial submission), so an item that "succeeds
on the 2nd attempt" is an `f` with `f item 0 = .error _` and
`f item 1 = .ok _`.  `_safe_process` (lines 116-121) catches the raised
exception and returns it as a value; `future.result()` then hands it back,
which is the `Except` value here.  The executor runs the submissions of a
phase before the corresponding collection loop reads them; the model
serialises this in submission order, which is the order the collection
loop consumes results in.  Timeouts and the (un-awaited, hence no-op)
`asyncio.sleep` backoff are not modelled.  Every `_safe_process` call is
recorded in `callLog` as `(item index, attempts value)`. -/

/-- Model of `BatchStats` (`optimization.py` lines 27-36), restricted to the fields
the claims mention; an error record is `(index, message)`.  Stats are
counted from a freshly zeroed `BatchStats` (as after `clear_stats`). -/
structure BatchStats where
  totalItems : Nat := 0
  processedItems : Nat := 0
  successfulItems : Nat := 0
  failedItems : Nat := 0
  errors : List (Nat × String) := []
deriving DecidableEq

/-- The `BatchProcessor` configuration relevant to `process_batch`
(`__init__`, lines 41-52). -/
structure BatchConfig where
  maxRetries : Nat := 3
  retryFailed : Bool := true
deriving DecidableEq

/-- The in-flight state of one `process_batch` call: the `results` slots,
the stats, and the log of `_safe_process` invocations. -/
structure BatchRun (U : Type) where
  results : List (Option U)
  stats : BatchStats
  callLog : List (Nat × Nat)
deriving DecidableEq

/-- Model of `_handle_error` (lines 161-175): bumps `failed_items` and appends a
structured error record. -/
def handleError (stats : BatchStats) (i : Nat) (msg : String) : BatchStats :=
  { stats with failedItems := stats.failedItems + 1, errors := stats.errors ++ [(i, msg)] }

/-- The initial submission/collection phase of `process_batch`
(lines 79-100), over the enumerated items: a success fills `results[i]`
and bumps `successful_items`; a failure either queues `(i, item, 1)` for
retry (when `retry_failed`) or is recorded via `_handle_error`. -/
def initialPass (cfg : BatchConfig) (f : T → Nat → Except String U) :
    List (Nat × T) → BatchRun U → List (Nat × T × Nat) × BatchRun U
  | [], run => ([], run)
  | (i, item) :: rest, run =>
      let run1 := { run with callLog := run.callLog ++ [(i, 0)] }
      match f item 0 with
      | .ok v =>
          initialPass cfg f rest
            { run1 with results := listSet run1.results i (some v),
                        stats := { run1.stats with
                          successfulItems := run1.stats.successfulItems + 1 } }
      | .error e =>
          if cfg.retryFailed then
            let step := initialPass cfg f rest run1
            ((i, item, 1) :: step.1, step.2)
          else
            initialPass cfg f rest { run1 with stats := handleError run1.stats i e }

/-- The submission half of one `_retry_failed_items` round
(lines 134-144): an item whose `attempts` already reached `max_retries`
is given up on with the "Max retries (N) exceeded" record; otherwise it
is resubmitted and `(i, outcome, attempts + 1)` joins the futures list —
which, exactly like the Python tuple `(i, future, attempts + 1)`, does
NOT carry the item. -/
def roundSubmit (cfg : BatchConfig) (f : T → Nat → Except String U) :
    List (Nat × T × Nat) → BatchRun U → List (Nat × Except String U × Nat) × BatchRun U
  | [], run => ([], run)
  | (i, item, attempts) :: rest, run =>
      if cfg.maxRetries ≤ attempts then
        roundSubmit cfg f rest
          { run with stats := (handleError run.stats i
              ("Max retries (" ++ toString cfg.maxRetries ++ ") exceeded")) }
      else
        let run1 := { run with callLog := run.callLog ++ [(i, attempts)] }
        let step := roundSubmit cfg f rest run1
        ((i, f item attempts, attempts + 1) :: step.1, step.2)

/-- The collection half of one `_retry_failed_items` round
(lines 146-155).  On a repeated failure the code rebuilds the lost item
with `retry_items[i][1]` — indexing the ROUND's retry list by the
original batch index `i`; `List.get?` out of range models the resulting
`IndexError`, and an in-range lookup takes whatever item sits at position
`i` of the retry list, exactly as the Python does. -/
def roundCollect (retryItems : List (Nat × T × Nat)) :
    List (Nat × Except String U × Nat) → BatchRun U →
      Except String (List (Nat × T × Nat) × BatchRun U)
  | [], run => .ok ([], run)
  | (i, outcome, nextAttempt) :: rest, run =>
      match outcome with
      | .ok v =>
          roundCollect retryItems rest
            { run with results := listSet run.results i (some v),
                       stats := { run.stats with
                         successfulItems := run.stats.successfulItems + 1 } }
      | .error _ =>
          match retryItems.get? i with
          | none => .error "IndexError: list index out of range"
          | some (_, item2, _) =>
              match roundCollect retryItems rest run with
              | .error e => .error e
              | .ok (nr, run2) => .ok ((i, item2, nextAttempt) :: nr, run2)

/-- The `while retry_items:` loop of `_retry_failed_items`
(lines 130-157).  The fuel argument is a termination device only: every
round strictly increases each surviving tuple's `attempts`, and a tuple
whose `attempts` reaches `max_retries` is dropped, so `max_retries + 2`
rounds always suffice and the fuel branch is unreachable from
`process_batch`. -/
def retryLoop (cfg : BatchConfig) (f : T → Nat → Except String U) :
    Nat → List (Nat × T × Nat) → BatchRun U → Except String (BatchRun U)
  | _, [], run => .ok run
  | 0, _ :: _, _ => .error "model: retry fuel exhausted"
  | fuel + 1, ri@(_ :: _), run =>
      let sub := roundSubmit cfg f ri run
      match roundCollect ri sub.1 sub.2 with
      | .error e => .error e
      | .ok (nextRetry, run2) => retryLoop cfg f fuel nextRetry run2

/-- The final `processed_items += len(items)` of `process_batch` (line 106). -/
def bumpProcessed (n : Nat) (r : BatchRun U) : BatchRun U :=
  { r with stats := { r.stats with processedItems := r.stats.processedItems + n } }

/-- Model of `process_batch` (lines 66-114): empty input returns `[]` untouched;
otherwise every item is submitted once, failures are optionally retried
by `_retry_failed_items`, and `processed_items` is bumped at the end.
An exception escaping the retry loop (the `IndexError` above) escapes
`process_batch` — there is no handler around the call at line 104. -/
def process_batch (cfg : BatchConfig) (f : T → Nat → Except String U) (items : List T) :
    Except String (BatchRun U) :=
  match items with
  | [] => .ok ⟨[], {}, []⟩
  | _ =>
      let run0 : BatchRun U :=
        ⟨List.replicate items.length none, { totalItems := items.length }, []⟩
      let step := initialPass cfg f items.enum run0
      match step.1, cfg.retryFailed with
      | [], _ => .ok (bumpProcessed items.length step.2)
      | _ :: _, false => .ok (bumpProcessed items.length step.2)
      | r@(_ :: _), true =>
          (retryLoop cfg f (cfg.maxRetries + 2) r step.2).map (bumpProcessed items.length)

/-- A per-item function for which item `0` always succeeds and every other
item always raises. -/
def headOkFn : Nat → Nat → Except String Nat :=
  fun t _ => if t = 0 then .ok 100 else .error "ValueError: boom"

/-- A per-item function that raises on every attempt. -/
def alwaysFailFn : Nat → Nat → Except String Nat :=
  fun _ _ => .error "ValueError: boom"

/-- The number of retry invocations in a call log: every `_safe_process`
call whose `attempts` value is nonzero, i.e. every invocation after the
initial one. -/
def retryCalls (log : List (Nat × Nat)) : Nat :=
  (log.filter (fun p => p.2 != 0)).length

/-- A per-item function failing the first attempt and succeeding afterwards. -/
def secondTryFn : Nat → Nat → Except String Nat :=
  fun _ n => if n = 0 then .error "ValueError: boom" else .ok 42

/-! ## optimization.py : CacheManager (lines 346-412)

The two dictionaries `_cache` (key → value, insertion-ordered) and
`_access_times` (key → last-access `datetime`) are modelled as one
insertion-ordered association list of entries.  `datetime.now()` is a
strictly increasing logical clock (`clock`), incremented at each point the
code calls `now()`; Python's `min(..., key=...)` returns the first
minimal element, which is exactly `List.argmin`.  The memory cap is the
default `max_memory_mb=None` configuration, under which both
`if self.max_memory_bytes:` branches of `set`/`_evict_lru` are skipped,
so only the item-count `while` loop remains. -/

/-- One cache entry: the `_cache` binding plus its `_access_times` stamp. -/
structure CacheEntry (α : Type) where
  key : String
  value : α
  access : Nat
deriving DecidableEq

/-- Model of `CacheManager` state (lines 349-355) with `max_memory_mb=None`, plus the
`CacheStats` counters the claims mention. -/
structure CacheManager (α : Type) where
  maxSize : Nat
  entries : List (CacheEntry α)
  clock : Nat
  hits : Nat
  misses : Nat
  evictions : Nat
deriving DecidableEq

namespace CacheManager

/-- Model of `min(self._access_times.items(), key=lambda x: x[1])[0]` (line 397):
the first entry with minimal access time. -/
def lruEntry (es : List (CacheEntry α)) : Option (CacheEntry α) :=
  es.argmin (fun e => e.access)

/-- Model of `_evict_lru` (lines 392-404): no-op on an empty cache, otherwise deletes
the least-recently-used binding from both dicts and bumps `evictions`.
Removal is by key, as `del self._cache[lru_key]` is — a dict holds at
most one binding per key, which is the Nodup-keys hypothesis of the
theorem below. -/
def evictLRU (c : CacheManager α) : CacheManager α :=
  match lruEntry c.entries with
  | none => c
  | some e =>
      { c with entries := c.entries.filter (fun x => x.key != e.key),
               evictions := c.evictions + 1 }

/-- The `while len(self._cache) >= self.max_size and self._cache:` loop of
`set` (lines 380-381).  The fuel only bounds the iteration count; each
pass through the loop body removes one entry, so `length + 1` fuel always
suffices. -/
def evictLoop : Nat → CacheManager α → CacheManager α
  | 0, c => c
  | fuel + 1, c =>
      if c.maxSize ≤ c.entries.length ∧ 0 < c.entries.length then
        evictLoop fuel (evictLRU c)
      else c

/-- Model of `set` (lines 367-390) under `max_memory_mb=None`: evict while over the
count cap, then bind `key` (updating in place when present, appending
when new) and stamp its access time. -/
def cset (c : CacheManager α) (k : String) (v : α) : CacheManager α :=
  let c1 := evictLoop (c.entries.length + 1) c
  let entries2 :=
    if c1.entries.any (fun e => e.key == k) then
      c1.entries.map (fun e => if e.key == k then { e with value := v, access := c1.clock }
        else e)
    else c1.entries ++ [⟨k, v, c1.clock⟩]
  { c1 with entries := entries2, clock := c1.clock + 1 }

/-- Model of `get` (lines 357-365): a hit refreshes the key's access stamp and bumps
`hits`; a miss bumps `misses` and returns `None`. -/
def cget (c : CacheManager α) (k : String) : Option α × CacheManager α :=
  match c.entries.find? (fun e => e.key == k) with
  | some e =>
      (some e.value,
        { c with entries := c.entries.map (fun x =>
            if x.key == k then { x with access := c.clock } else x),
                 clock := c.clock + 1, hits := c.hits + 1 })
  | none => (none, { c with misses := c.misses + 1 })

end CacheManager

/-- A concrete full cache: two entries, capacity two, key "a" least
recently used. -/
def cacheW : CacheManager Nat :=
  { maxSize := 2,
    entries := [⟨"a", 10, 0⟩, ⟨"b", 11, 1⟩],
    clock := 2, hits := 0, misses := 0, evictions := 0 }

/-! ## optimization.py : DatasetOptimizer.chunk_dataset, strategy "size"
(lines 499-546)

The `size` branch is `for i in range(0, len(data), self.chunk_size):
chunks.append(data[i:i + self.chunk_size])`.  For a positive step this is
the take/drop recursion below (`data[i:i+k] = take k (drop i data)`); a
zero step makes `range` raise `ValueError` before the loop body runs.
(`chunk_size` comes from the constructor as an `int`; the model uses
`Nat`, covering the zero case explicitly — a negative step would make the
`range` empty and the result `[]`.)  The fuel is `data.length`, which
suffices for any positive `chunk_size`. -/

/-- The chunking recursion for strategy `size`. -/
def chunkAux (k : Nat) : Nat → List α → List (List α)
  | _, [] => []
  | 0, _ :: _ => []
  | fuel + 1, x :: xs => (x :: xs).take k :: chunkAux k fuel ((x :: xs).drop k)

/-- Model of `chunk_dataset(data, strategy="size")` with `chunk_size = k`. -/
def chunk_dataset_size (k : Nat) (data : List α) : Except String (List (List α)) :=
  if k = 0 then .error "ValueError: range() arg 3 must not be zero"
  else .ok (chunkAux k data.length data)

/-! ## optimization.py : DatasetOptimizer.process_chunks (lines 554-599)

Each chunk is processed by a coroutine that, on completion, appends its
results to the shared `processed_results` list
(`processed_results.extend(result)`, line 580); a chunk whose processing
function raises is caught and contributes nothing (lines 587-591).  The
coroutines START in submission order (the `asyncio.gather` argument
order) but APPEND in the order their executor calls complete, which the
event loop does not constrain.  The model therefore takes the completion
order as an explicit parameter: a permutation `order` of the chunk
indices, with `order = List.range chunks.length` the schedule in which
chunks happen to complete in submission order.  The per-chunk function
returns `Option` (`none` = raised, caught, no results). -/

/-- The result list one chunk contributes: `[]` when the chunk failed. -/
def chunkResult (chunks : List (List α)) (f : List α → Option (List β)) (i : Nat) :
    List β :=
  match chunks.get? i with
  | some c => (f c).getD []
  | none => []

/-- Model of `process_chunks`: `processed_results` after all coroutines appended
their chunk's results, in completion order. -/
def process_chunks (chunks : List (List α)) (f : List α → Option (List β))
    (order : List Nat) : List β :=
  order.foldl (fun acc i => acc ++ chunkResult chunks f i) []

/-! ## pdf_processor.py : PDFProcessor.process_pdf (lines 203-340)

`process_pdf` is mid-refactor: the executed body (lines 203-254) creates
and commits a fresh `Document(filename=filename)` (no `file_hash`), opens
and parses the PDF (`fitz.open`), runs the page batches and
`identify_sections` — all of the expensive extraction work — and RETURNS
the new document at line 250 (or re-raises at line 254).  Everything from
line 255 on, i.e. the stray docstring and the `_compute_file_hash` /
"already processed" dedup lookup at lines 258-265 together with the
second implementation, is dead code after that `return`/`raise`: no call
to `_compute_file_hash` is reachable.  The model below embeds the
executed path over an abstract store: a commit-assigned id counter, the
committed documents, and a counter of extraction runs (PDF parsing plus
page processing), which stands in for the spec's "extraction-call
counter".  The byte content is a parameter precisely so the model shows
the result does not depend on it. -/

/-- A committed `Document` row, restricted to the fields the claim
mentions; the executed path never assigns `file_hash`. -/
structure StoredDocument where
  id : Nat
  filename : String
  fileHash : Option String
  processed : Bool
deriving DecidableEq

/-- The persistence/extraction state visible to `process_pdf`. -/
structure PipelineState where
  docs : List StoredDocument
  nextId : Nat
  extractionRuns : Nat
deriving DecidableEq

/-- The executed path of `process_pdf` (lines 203-254): commit a fresh
document (lines 206-208), run extraction and classification over the
bytes (lines 212-248, counted as one extraction run), mark it processed,
and return it.  No hash is computed and no existing document is looked
up — the dedup block at lines 258-265 sits after the `return`. -/
def process_pdf (content : List Nat) (filename : String) (st : PipelineState) :
    StoredDocument × PipelineState :=
  let doc : StoredDocument :=
    { id := st.nextId, filename := filename, fileHash := none, processed := true }
  (doc,
    { docs := st.docs ++ [doc], nextId := st.nextId + 1,
      extractionRuns := st.extractionRuns + 1 })

/-! ## Lemmas and theorems -/

lemma pymin_le_right (a b : ℚ) : pymin a b ≤ b := by
  unfold pymin
  split
  · assumption
  · exact le_refl b

lemma pymin_mono_left {a b : ℚ} (c : ℚ) (h : a ≤ b) : pymin a c ≤ pymin b c := by
  unfold pymin
  split_ifs <;> linarith

lemma le_pymin {a b c : ℚ} (ha : c ≤ a) (hb : c ≤ b) : c ≤ pymin a b := by
  unfold pymin
  split
  · exact ha
  · exact hb

lemma round1_mono {x y : ℚ} (h : x ≤ y) : round1 x ≤ round1 y := by
  unfold round1
  have : round (10 * x) ≤ round (10 * y) := by
    rw [round_eq, round_eq]
    exact Int.floor_le_floor (by linarith)
  have hc : ((round (10 * x) : ℤ) : ℚ) ≤ ((round (10 * y) : ℤ) : ℚ) := by exact_mod_cast this
  linarith

lemma round1_nonneg {x : ℚ} (h : 0 ≤ x) : 0 ≤ round1 x := by
  have h0 : round1 0 ≤ round1 x := round1_mono h
  have : round1 0 = 0 := by norm_num [round1]
  linarith

/-- C3: the spec says calling `complete_current_step` (or fail/skip) with no
current step is a no-op.  On the code it is not: with `current_step_index
= -1` and a non-empty step list the guard `current_step_index <
len(steps)` passes and `steps[-1]` mutates the LAST step (its status
flips from `waiting` to `success`), and with an empty step list the same
guard passes and `steps[-1]` raises `IndexError`.  Both behaviours are
evaluated here on concrete trackers on which `start_next_step` was never
called. -/
theorem complete_current_step_not_noop :
    ((ProcessingTracker.addStep "Text Extraction" "extract" 25 (mkTracker "a.pdf" 0)
        |> execOp (.completeCur 1 none)).map
      (fun t => t.steps.map (fun s => s.status)) = .ok [.success]) ∧
    execOp (.completeCur 1 none) (mkTracker "a.pdf" 0) =
      .error "IndexError: list index out of range" := by
  constructor
  · rfl
  · rfl

/-- C10: `complete_processing` only sets `is_complete`, `end_time` and
`overall_progress`; steps, current index, file name and start time are
untouched, so the statuses shown in the terminal snapshot are exactly the
statuses the steps had before the call (a step still `processing` stays
`processing`). -/
theorem complete_processing_frame (t : ProcessingTracker) (now : Nat)
    (t' : ProcessingTracker) (h : execOp (.completeProc now) t = .ok t') :
    t'.steps = t.steps ∧
    t'.currentStepIndex = t.currentStepIndex ∧
    t'.fileName = t.fileName ∧
    t'.startTime = t.startTime ∧
    t'.isComplete = true ∧
    t'.endTime = some now ∧
    t'.overallProgress = 100 ∧
    (toSnapshot t').stepStatuses = t.steps.map (fun s => s.status) := by
  have ht : t' = t.completeProcessing now := by
    simpa [execOp] using h.symm
  subst ht
  simp [ProcessingTracker.completeProcessing, toSnapshot]

/-- Witness for `complete_processing_frame` at a tracker whose current step
is still `processing` when the job is completed. -/
theorem complete_processing_frame_witness :
    (execOp (.completeProc 9) frameTracker =
      .ok { frameTracker with isComplete := true, endTime := some 9,
                              overallProgress := 100 }) ∧
    ({ frameTracker with isComplete := true, endTime := some 9,
                         overallProgress := (100 : ℚ) }.steps = frameTracker.steps ∧
     ({ frameTracker with isComplete := true, endTime := some 9,
                          overallProgress := (100 : ℚ) }).currentStepIndex =
        frameTracker.currentStepIndex ∧
     ({ frameTracker with isComplete := true, endTime := some 9,
                          overallProgress := (100 : ℚ) }).fileName = frameTracker.fileName ∧
     ({ frameTracker with isComplete := true, endTime := some 9,
                          overallProgress := (100 : ℚ) }).startTime = frameTracker.startTime ∧
     ({ frameTracker with isComplete := true, endTime := some 9,
                          overallProgress := (100 : ℚ) }).isComplete = true ∧
     ({ frameTracker with isComplete := true, endTime := some 9,
                          overallProgress := (100 : ℚ) }).endTime = some 9 ∧
     ({ frameTracker with isComplete := true, endTime := some 9,
                          overallProgress := (100 : ℚ) }).overallProgress = 100 ∧
     (toSnapshot { frameTracker with isComplete := true, endTime := some 9,
                                     overallProgress := (100 : ℚ) }).stepStatuses =
        frameTracker.steps.map (fun s => s.status)) :=
  ⟨rfl, complete_processing_frame frameTracker 9 _ rfl⟩

/-! ## C9: `overall_progress` never exceeds 100 -/

lemma terminalStepOp_le_100 (g : ProcessingStep → ProcessingStep)
    (t t' : ProcessingTracker) (h : ProcessingTracker.terminalStepOp g t = .ok t')
    (hle : t.overallProgress ≤ 100) : t'.overallProgress ≤ 100 := by
  unfold ProcessingTracker.terminalStepOp at h
  split at h
  · split at h
    · exact absurd h (by simp)
    · cases h
      exact pymin_le_right _ _
  · cases h
    exact hle

lemma startNextStep_le_100 (now : Nat) (details : Option String)
    (t t' : ProcessingTracker) (h : t.startNextStep now details = .ok t')
    (hle : t.overallProgress ≤ 100) : t'.overallProgress ≤ 100 := by
  unfold ProcessingTracker.startNextStep at h
  dsimp only at h
  split at h
  · split at h
    · exact absurd h (by simp)
    · cases h
      exact pymin_le_right _ _
  · cases h
    exact hle

lemma execOp_le_100 (op : TOp) (t t' : ProcessingTracker) (h : execOp op t = .ok t')
    (hle : t.overallProgress ≤ 100) : t'.overallProgress ≤ 100 := by
  cases op with
  | addStep name description w =>
      cases h
      exact hle
  | startNext now details => exact startNextStep_le_100 now details t t' h hle
  | completeCur now details => exact terminalStepOp_le_100 _ t t' h hle
  | failCur now err details => exact terminalStepOp_le_100 _ t t' h hle
  | skipCur now reason => exact terminalStepOp_le_100 _ t t' h hle
  | completeProc now =>
      cases h
      norm_num [ProcessingTracker.completeProcessing]

lemma runOps_le_100 : ∀ (ops : List TOp) (t t' : ProcessingTracker),
    runOps ops t = .ok t' → t.overallProgress ≤ 100 → t'.overallProgress ≤ 100 := by
  intro ops
  induction ops with
  | nil =>
      intro t t' h hle
      simp only [runOps, List.foldlM_nil] at h
      cases h
      exact hle
  | cons op ops ih =>
      intro t t' h hle
      rw [runOps, List.foldlM_cons] at h
      cases hop : execOp op t with
      | error e => rw [hop] at h; exact absurd h (by simp [Bind.bind, Except.bind])
      | ok t1 =>
          rw [hop] at h
          simp only [Bind.bind, Except.bind] at h
          exact ih t1 t' h (execOp_le_100 op t t1 hop hle)

/-- C9: starting from a fresh tracker, `overall_progress` never exceeds 100
after any sequence of operations — even when the added step weights sum to
more than 100 (the statement has no hypothesis on the weights), because
`_update_progress` clamps with `min(..., 100)`; and `complete_processing`
always sets it to exactly 100. -/
theorem overall_progress_le_100 (fn : String) (now : Nat) (ops : List TOp)
    (t : ProcessingTracker) (h : runOps ops (mkTracker fn now) = .ok t) :
    t.overallProgress ≤ 100 ∧
    ∀ n, (t.completeProcessing n).overallProgress = 100 := by
  refine ⟨runOps_le_100 ops _ t h (by norm_num [mkTracker]), fun n => rfl⟩

lemma overweight_run :
    runOps overweightOps (mkTracker "a.pdf" 0) = .ok overweightTracker := by
  simp [runOps, overweightOps, List.foldlM_cons, List.foldlM_nil, execOp, mkTracker,
    ProcessingTracker.addStep, ProcessingTracker.startNextStep,
    ProcessingTracker.completeCurrentStep, ProcessingTracker.terminalStepOp,
    ProcessingTracker.updateProgress, ProcessingTracker.completedPercentage,
    ProcessingTracker.cpAux, pyIndex, listModify, listSet, ProcessingStep.start,
    ProcessingStep.complete, ProcessingStep.contribution, round1, pymin, overweightTracker,
    bind, Except.bind, pure, Except.pure]
  constructor
  · exact ⟨rfl, rfl⟩
  · norm_num [round_eq]

/-- Witness for `overall_progress_le_100` on a run whose weights sum to 150. -/
theorem overall_progress_le_100_witness :
    runOps overweightOps (mkTracker "a.pdf" 0) = .ok overweightTracker ∧
    overweightTracker.overallProgress ≤ 100 ∧
    (overweightTracker.completeProcessing 4).overallProgress = 100 :=
  ⟨overweight_run,
    (overall_progress_le_100 "a.pdf" 0 overweightOps overweightTracker overweight_run).1,
    (overall_progress_le_100 "a.pdf" 0 overweightOps overweightTracker overweight_run).2 4⟩

/-! ## C2: monotonicity of `overall_progress`

The original claim (progress never decreases under ANY operation sequence)
is false: `fail_current_step` moves the current step from `processing`
(which contributes half its weight) to `error` (which contributes
nothing), so progress drops.  Below: the counterexample, then the amended
monotonicity theorem for the fail-free operations. -/

lemma contribution_nonneg {s : ProcessingStep} (h : 0 ≤ s.percentageOfTotal) :
    0 ≤ s.contribution := by
  unfold ProcessingStep.contribution
  cases s.status <;> simp <;> linarith

lemma contribution_le_weight {s : ProcessingStep} (h : 0 ≤ s.percentageOfTotal) :
    s.contribution ≤ s.percentageOfTotal := by
  unfold ProcessingStep.contribution
  cases s.status <;> simp <;> linarith

lemma cpAux_nonneg : ∀ (l : List ProcessingStep) (k : Int) (i : Nat),
    (∀ s ∈ l, 0 ≤ s.percentageOfTotal) → 0 ≤ ProcessingTracker.cpAux k i l := by
  intro l
  induction l with
  | nil => intro k i _; simp [ProcessingTracker.cpAux]
  | cons s rest ih =>
      intro k i h
      have hs : 0 ≤ s.percentageOfTotal := h s (by simp)
      have hrest : ∀ x ∈ rest, 0 ≤ x.percentageOfTotal := fun x hx => h x (by simp [hx])
      simp only [ProcessingTracker.cpAux]
      have hterm : 0 ≤ (if (i : Int) < k then s.percentageOfTotal
          else if (i : Int) = k then s.contribution else 0) := by
        split_ifs
        · exact hs
        · exact contribution_nonneg hs
        · exact le_refl 0
      have := ih k (i + 1) hrest
      linarith

lemma cpAux_zero_of_lt : ∀ (l : List ProcessingStep) (k : Int) (i : Nat),
    k < (i : Int) → ProcessingTracker.cpAux k i l = 0 := by
  intro l
  induction l with
  | nil => intro k i _; simp [ProcessingTracker.cpAux]
  | cons s rest ih =>
      intro k i hk
      have h1 : ¬ ((i : Int) < k) := by omega
      have h2 : ¬ ((i : Int) = k) := by omega
      simp only [ProcessingTracker.cpAux, h1, h2, if_false]
      rw [ih k (i + 1) (by omega)]
      norm_num

lemma cpAux_append_le {s : ProcessingStep} (hs : 0 ≤ s.percentageOfTotal) :
    ∀ (l : List ProcessingStep) (k : Int) (i : Nat),
    ProcessingTracker.cpAux k i l ≤ ProcessingTracker.cpAux k i (l ++ [s]) := by
  intro l
  induction l with
  | nil =>
      intro k i
      simp only [List.nil_append, ProcessingTracker.cpAux]
      have hterm : 0 ≤ (if (i : Int) < k then s.percentageOfTotal
          else if (i : Int) = k then s.contribution else 0) := by
        split_ifs
        · exact hs
        · exact contribution_nonneg hs
        · exact le_refl 0
      linarith
  | cons a rest ih =>
      intro k i
      simp only [List.cons_append, List.append_eq, ProcessingTracker.cpAux]
      have := ih k (i + 1)
      linarith

lemma cpAux_index_succ_le : ∀ (l : List ProcessingStep) (k : Int) (i : Nat),
    (∀ s ∈ l, 0 ≤ s.percentageOfTotal) →
    ProcessingTracker.cpAux k i l ≤ ProcessingTracker.cpAux (k + 1) i l := by
  intro l
  induction l with
  | nil => intro k i _; simp [ProcessingTracker.cpAux]
  | cons s rest ih =>
      intro k i h
      have hs : 0 ≤ s.percentageOfTotal := h s (by simp)
      have hrest : ∀ x ∈ rest, 0 ≤ x.percentageOfTotal := fun x hx => h x (by simp [hx])
      simp only [ProcessingTracker.cpAux]
      have hterm : (if (i : Int) < k then s.percentageOfTotal
          else if (i : Int) = k then s.contribution else 0) ≤
        (if (i : Int) < k + 1 then s.percentageOfTotal
          else if (i : Int) = k + 1 then s.contribution else 0) := by
        split_ifs <;> first
          | linarith
          | (exact contribution_le_weight hs)
          | (exact contribution_nonneg hs)
          | omega
      have := ih k (i + 1) hrest
      linarith

/-- All elements of a point-modified list still satisfy a property preserved
by the modifier. -/
lemma forall_mem_listModify {P : ProcessingStep → Prop} (g : ProcessingStep → ProcessingStep)
    (hg : ∀ s, P s → P (g s)) :
    ∀ (l : List ProcessingStep) (p : Nat), (∀ s ∈ l, P s) → ∀ s ∈ listModify g p l, P s := by
  intro l
  induction l with
  | nil => intro p _ s hs; simp [listModify] at hs
  | cons a rest ih =>
      intro p h s hs
      cases p with
      | zero =>
          simp only [listModify, List.mem_cons] at hs
          rcases hs with hs | hs
          · exact hs ▸ hg a (h a (by simp))
          · exact h s (by simp [hs])
      | succ q =>
          simp only [listModify, List.mem_cons] at hs
          rcases hs with hs | hs
          · exact hs ▸ h a (by simp)
          · exact ih q (fun x hx => h x (by simp [hx])) s hs

/-- Advancing the current index to `k + 1` and starting the step at global
position `k + 1` never decreases `completed_percentage` (the step that was
current contributes at most its full weight, which it now yields in full,
and the newly current step adds a nonnegative half weight). -/
lemma cpAux_start_le (now : Nat) (details : Option String) :
    ∀ (l : List ProcessingStep) (i p : Nat) (k : Int),
    (∀ s ∈ l, 0 ≤ s.percentageOfTotal) → ((i : Int) + (p : Int) = k + 1) →
    ProcessingTracker.cpAux k i l ≤
      ProcessingTracker.cpAux (k + 1) i (listModify (ProcessingStep.start now details) p l) := by
  intro l
  induction l with
  | nil => intro i p k _ _; simp [ProcessingTracker.cpAux, listModify]
  | cons s rest ih =>
      intro i p k h hp
      have hs : 0 ≤ s.percentageOfTotal := h s (by simp)
      have hrest : ∀ x ∈ rest, 0 ≤ x.percentageOfTotal := fun x hx => h x (by simp [hx])
      cases p with
      | zero =>
          have hik : (i : Int) = k + 1 := by push_cast at hp; omega
          have hrw := cpAux_zero_of_lt rest k (i + 1) (by omega)
          have hc : 0 ≤ (ProcessingStep.start now details s).contribution :=
            contribution_nonneg (by simpa [ProcessingStep.start] using hs)
          have hr : 0 ≤ ProcessingTracker.cpAux (k + 1) (i + 1) rest :=
            cpAux_nonneg rest (k + 1) (i + 1) hrest
          simp only [listModify, ProcessingTracker.cpAux, hrw]
          split_ifs
          all_goals try (exfalso; omega)
          all_goals linarith
      | succ q =>
          have hik : (i : Int) ≤ k := by push_cast at hp ⊢; omega
          simp only [listModify, ProcessingTracker.cpAux]
          have hterm : (if (i : Int) < k then s.percentageOfTotal
              else if (i : Int) = k then s.contribution else 0) ≤
            (if (i : Int) < k + 1 then s.percentageOfTotal
              else if (i : Int) = k + 1 then s.contribution else 0) := by
            split_ifs <;> first
              | linarith
              | (exact contribution_le_weight hs)
              | (exact contribution_nonneg hs)
              | omega
          have htail := ih (i + 1) q k hrest (by push_cast at hp ⊢; omega)
          linarith

/-- Turning the step at global position `p` into a terminal full-credit state
(`complete`/`skip`: weight preserved, contribution becomes the full
weight) never decreases `completed_percentage`, regardless of whether the
modified position is the current one (`i + p = k`) or the index is
negative and nothing is counted (`k < i`). -/
lemma cpAux_upgrade_le {g : ProcessingStep → ProcessingStep}
    (hgw : ∀ s, (g s).percentageOfTotal = s.percentageOfTotal)
    (hgc : ∀ s, (g s).contribution = s.percentageOfTotal) :
    ∀ (l : List ProcessingStep) (i p : Nat) (k : Int),
    (∀ s ∈ l, 0 ≤ s.percentageOfTotal) → (((i : Int) + (p : Int) = k) ∨ k < (i : Int)) →
    ProcessingTracker.cpAux k i l ≤ ProcessingTracker.cpAux k i (listModify g p l) := by
  intro l
  induction l with
  | nil => intro i p k _ _; simp [ProcessingTracker.cpAux, listModify]
  | cons s rest ih =>
      intro i p k h hp
      have hs : 0 ≤ s.percentageOfTotal := h s (by simp)
      have hrest : ∀ x ∈ rest, 0 ≤ x.percentageOfTotal := fun x hx => h x (by simp [hx])
      rcases hp with hp | hp
      · cases p with
        | zero =>
            have hik : (i : Int) = k := by push_cast at hp; omega
            simp only [listModify, ProcessingTracker.cpAux]
            have hterm : (if (i : Int) < k then s.percentageOfTotal
                else if (i : Int) = k then s.contribution else 0) ≤
              (if (i : Int) < k then (g s).percentageOfTotal
                else if (i : Int) = k then (g s).contribution else 0) := by
              rw [hgw, hgc]
              split_ifs
              all_goals try (exfalso; omega)
              all_goals first
                | exact le_refl _
                | exact contribution_le_weight hs
            linarith
        | succ q =>
            simp only [listModify, ProcessingTracker.cpAux]
            have htail := ih (i + 1) q k hrest (Or.inl (by push_cast at hp ⊢; omega))
            linarith
      · rw [cpAux_zero_of_lt (s :: rest) k i hp,
          cpAux_zero_of_lt (listModify g p (s :: rest)) k i hp]

/-- Weight preservation facts for the three step mutators. -/
lemma start_preserves_weight (now : Nat) (details : Option String) (s : ProcessingStep) :
    (ProcessingStep.start now details s).percentageOfTotal = s.percentageOfTotal := rfl

lemma complete_weight_facts (now : Nat) (details : Option String) :
    (∀ s, (ProcessingStep.complete now details s).percentageOfTotal = s.percentageOfTotal) ∧
    (∀ s, (ProcessingStep.complete now details s).contribution = s.percentageOfTotal) :=
  ⟨fun _ => rfl, fun _ => rfl⟩

lemma skip_weight_facts (now : Nat) (reason : Option String) :
    (∀ s, (ProcessingStep.skip now reason s).percentageOfTotal = s.percentageOfTotal) ∧
    (∀ s, (ProcessingStep.skip now reason s).contribution = s.percentageOfTotal) :=
  ⟨fun _ => rfl, fun _ => rfl⟩

/-- If `pyIndex` returns a position, the index was either that position
itself (nonnegative case) or negative. -/
lemma pyIndex_spec {k : Int} {len p : Nat} (h : pyIndex k len = some p) :
    ((p : Int) = k ∧ 0 ≤ k) ∨ k < 0 := by
  unfold pyIndex at h
  split_ifs at h with h1 h2 h3
  · injection h with h4
    left
    exact ⟨by omega, h1⟩
  · injection h with h4
    right
    omega

lemma mkTracker_inv (fn : String) (now : Nat) : ProgressInv (mkTracker fn now) := by
  refine ⟨by simp [mkTracker], by norm_num [mkTracker], ?_, by norm_num [mkTracker]⟩
  have : ProcessingTracker.completedPercentage (mkTracker fn now) = 0 := by
    simp [mkTracker, ProcessingTracker.completedPercentage, ProcessingTracker.cpAux]
  rw [this]
  have h0 : round1 0 = 0 := by norm_num [round1]
  rw [h0]
  norm_num [mkTracker, pymin]

lemma execOp_basic_mono (op : TOp) (t t' : ProcessingTracker)
    (hInv : ProgressInv t) (hop : BasicOp op) (h : execOp op t = .ok t') :
    t.overallProgress ≤ t'.overallProgress ∧ ProgressInv t' := by
  obtain ⟨hw, hnn, hbd, hix⟩ := hInv
  cases op with
  | addStep name description w =>
      have hw0 : 0 ≤ w := hop
      cases h
      refine ⟨le_refl _, ?_, hnn, ?_, hix⟩
      · intro s hs
        simp only [ProcessingTracker.addStep, List.mem_append, List.mem_singleton] at hs
        rcases hs with hs | hs
        · exact hw s hs
        · rw [hs]; exact hw0
      · simp only [ProcessingTracker.addStep, ProcessingTracker.completedPercentage]
        refine le_trans hbd (pymin_mono_left 100 (round1_mono ?_))
        exact cpAux_append_le hw0 t.steps t.currentStepIndex 0
  | startNext now details =>
      simp only [execOp] at h
      unfold ProcessingTracker.startNextStep at h
      dsimp only at h
      split at h
      · rename_i hlt
        split at h
        · exact absurd h (by simp)
        · rename_i p heq
          cases h
          have hp : (p : Int) = t.currentStepIndex + 1 := by
            rcases pyIndex_spec heq with ⟨hp, _⟩ | hneg
            · exact hp
            · omega
          have hw2 : ∀ s ∈ listModify (ProcessingStep.start now details) p t.steps,
              0 ≤ s.percentageOfTotal :=
            forall_mem_listModify (ProcessingStep.start now details) (fun s hs => hs) t.steps p hw
          simp only [ProcessingTracker.updateProgress, ProcessingTracker.completedPercentage,
            ProgressInv]
          refine ⟨?_, hw2, le_pymin (round1_nonneg (cpAux_nonneg _ _ _ hw2)) (by norm_num),
            le_refl _, by omega⟩
          refine le_trans hbd (pymin_mono_left 100 (round1_mono ?_))
          exact cpAux_start_le now details t.steps 0 p t.currentStepIndex hw (by push_cast; omega)
      · cases h
        simp only [ProgressInv, ProcessingTracker.completedPercentage]
        refine ⟨le_refl _, hw, hnn, ?_, by omega⟩
        refine le_trans hbd (pymin_mono_left 100 (round1_mono ?_))
        exact cpAux_index_succ_le t.steps t.currentStepIndex 0 hw
  | failCur now err details => exact absurd hop (by simp [BasicOp])
  | completeProc now => exact absurd hop (by simp [BasicOp])
  | completeCur now details =>
      simp only [execOp] at h
      unfold ProcessingTracker.completeCurrentStep ProcessingTracker.terminalStepOp at h
      split at h
      · split at h
        · exact absurd h (by simp)
        · rename_i p heq
          cases h
          have hdisj : (((0 : Nat) : Int) + (p : Int) = t.currentStepIndex) ∨
              t.currentStepIndex < ((0 : Nat) : Int) := by
            rcases pyIndex_spec heq with ⟨hp, hk0⟩ | hneg
            · left; push_cast; omega
            · right; push_cast; omega
          have hup := cpAux_upgrade_le (complete_weight_facts now details).1
            (complete_weight_facts now details).2 t.steps 0 p t.currentStepIndex hw hdisj
          have hw2 : ∀ s ∈ listModify (ProcessingStep.complete now details) p t.steps,
              0 ≤ s.percentageOfTotal :=
            forall_mem_listModify (ProcessingStep.complete now details) (fun s hs =>
              by rw [(complete_weight_facts now details).1 s]; exact hs) t.steps p hw
          simp only [ProcessingTracker.updateProgress, ProcessingTracker.completedPercentage,
            ProgressInv]
          exact ⟨le_trans hbd (pymin_mono_left 100 (round1_mono hup)),
            hw2, le_pymin (round1_nonneg (cpAux_nonneg _ _ _ hw2)) (by norm_num),
            le_refl _, hix⟩
      · cases h
        exact ⟨le_refl _, hw, hnn, hbd, hix⟩
  | skipCur now reason =>
      simp only [execOp] at h
      unfold ProcessingTracker.skipCurrentStep ProcessingTracker.terminalStepOp at h
      split at h
      · split at h
        · exact absurd h (by simp)
        · rename_i p heq
          cases h
          have hdisj : (((0 : Nat) : Int) + (p : Int) = t.currentStepIndex) ∨
              t.currentStepIndex < ((0 : Nat) : Int) := by
            rcases pyIndex_spec heq with ⟨hp, hk0⟩ | hneg
            · left; push_cast; omega
            · right; push_cast; omega
          have hup := cpAux_upgrade_le (skip_weight_facts now reason).1
            (skip_weight_facts now reason).2 t.steps 0 p t.currentStepIndex hw hdisj
          have hw2 : ∀ s ∈ listModify (ProcessingStep.skip now reason) p t.steps,
              0 ≤ s.percentageOfTotal :=
            forall_mem_listModify (ProcessingStep.skip now reason) (fun s hs =>
              by rw [(skip_weight_facts now reason).1 s]; exact hs) t.steps p hw
          simp only [ProcessingTracker.updateProgress, ProcessingTracker.completedPercentage,
            ProgressInv]
          exact ⟨le_trans hbd (pymin_mono_left 100 (round1_mono hup)),
            hw2, le_pymin (round1_nonneg (cpAux_nonneg _ _ _ hw2)) (by norm_num),
            le_refl _, hix⟩
      · cases h
        exact ⟨le_refl _, hw, hnn, hbd, hix⟩

/-- C2 (amended): over every sequence of `add_step` (nonnegative weight),
`start_next_step`, `complete_current_step` and `skip_current_step`,
`overall_progress` is monotonically non-decreasing from any state
satisfying the invariant (in particular from a fresh tracker, see
`mkTracker_inv`), the invariant is preserved, and a final
`complete_processing` never decreases it either.  `fail_current_step` is
excluded: it genuinely decreases progress
(see `overall_progress_decreases_on_fail`). -/
theorem overall_progress_monotone_amended :
    ∀ (ops : List TOp), (∀ op ∈ ops, BasicOp op) →
    ∀ (t t' : ProcessingTracker), ProgressInv t → runOps ops t = .ok t' →
      t.overallProgress ≤ t'.overallProgress ∧ ProgressInv t' ∧
      ∀ n, t'.overallProgress ≤ (t'.completeProcessing n).overallProgress := by
  intro ops
  induction ops with
  | nil =>
      intro _ t t' hInv h
      simp only [runOps, List.foldlM_nil] at h
      cases h
      refine ⟨le_refl _, hInv, fun n => ?_⟩
      have h100 : (ProcessingTracker.completeProcessing n t).overallProgress = 100 := rfl
      rw [ProcessingTracker.completeProcessing]
      exact le_trans hInv.2.2.1 (pymin_le_right _ _)
  | cons op ops ih =>
      intro hops t t' hInv h
      rw [runOps, List.foldlM_cons] at h
      cases hop : execOp op t with
      | error e => rw [hop] at h; exact absurd h (by simp [Bind.bind, Except.bind])
      | ok t1 =>
          rw [hop] at h
          simp only [Bind.bind, Except.bind] at h
          have hstep := execOp_basic_mono op t t1 hInv (hops op (by simp)) hop
          have hrest := ih (fun o ho => hops o (by simp [ho])) t1 t' hstep.2 h
          exact ⟨le_trans hstep.1 hrest.1, hrest.2.1, hrest.2.2⟩

/-- C2 counterexample: after `add_step(w=25)` and `start_next_step` the
progress is `12.5` (half the current step's weight); the next operation
`fail_current_step` — one of the operations the claim quantifies over —
recomputes it to `0`, a strict decrease. -/
theorem overall_progress_decreases_on_fail :
    ((runOps [.addStep "Text Extraction" "extract" 25, .startNext 0 none]
        (mkTracker "a.pdf" 0)).map (fun t => t.overallProgress) = .ok (25 / 2)) ∧
    ((runOps [.addStep "Text Extraction" "extract" 25, .startNext 0 none,
        .failCur 1 "LLM API error" none]
        (mkTracker "a.pdf" 0)).map (fun t => t.overallProgress) = .ok 0) ∧
    ¬ ((25 : ℚ) / 2 ≤ 0) := by
  refine ⟨?_, ?_, by norm_num⟩ <;>
    simp [runOps, List.foldlM_cons, List.foldlM_nil, execOp, mkTracker,
      ProcessingTracker.addStep, ProcessingTracker.startNextStep,
      ProcessingTracker.failCurrentStep, ProcessingTracker.terminalStepOp,
      ProcessingTracker.updateProgress, ProcessingTracker.completedPercentage,
      ProcessingTracker.cpAux, pyIndex, listModify, ProcessingStep.start,
      ProcessingStep.fail, ProcessingStep.contribution, round1, pymin,
      bind, Except.bind, pure, Except.pure, Except.map] <;>
    norm_num [round_eq]

lemma monotone_runW : runOps monotoneOpsW (mkTracker "a.pdf" 0) = .ok monotoneTrackerW := by
  simp [runOps, monotoneOpsW, List.foldlM_cons, List.foldlM_nil, execOp, mkTracker,
    ProcessingTracker.addStep, ProcessingTracker.startNextStep,
    ProcessingTracker.completeCurrentStep, ProcessingTracker.terminalStepOp,
    ProcessingTracker.updateProgress, ProcessingTracker.completedPercentage,
    ProcessingTracker.cpAux, pyIndex, listModify, ProcessingStep.start,
    ProcessingStep.complete, ProcessingStep.contribution, round1, pymin, monotoneTrackerW,
    bind, Except.bind, pure, Except.pure]
  constructor
  · rfl
  · norm_num [round_eq]

/-- Witness for `overall_progress_monotone_amended` on a concrete fail-free
run from a fresh tracker. -/
theorem overall_progress_monotone_amended_witness :
    (∀ op ∈ monotoneOpsW, BasicOp op) ∧
    ProgressInv (mkTracker "a.pdf" 0) ∧
    runOps monotoneOpsW (mkTracker "a.pdf" 0) = .ok monotoneTrackerW ∧
    ((mkTracker "a.pdf" 0).overallProgress ≤ monotoneTrackerW.overallProgress ∧
     ProgressInv monotoneTrackerW ∧
     ∀ n, monotoneTrackerW.overallProgress ≤
        (monotoneTrackerW.completeProcessing n).overallProgress) :=
  ⟨by intro op hop; fin_cases hop <;> norm_num [BasicOp],
   mkTracker_inv "a.pdf" 0,
   monotone_runW,
   overall_progress_monotone_amended monotoneOpsW
     (by intro op hop; fin_cases hop <;> norm_num [BasicOp])
     (mkTracker "a.pdf" 0) monotoneTrackerW (mkTracker_inv "a.pdf" 0) monotone_runW⟩

/-- C4: the spec says `process_batch` returns a length-`N` list of
result-or-`None` and never raises because an item's function raised.  On
the code it CAN raise: with the default `retry_failed=True`, a failing
item at batch index `i ≥ len(retry_items)` reaches
`retry_items[i][1]` in `_retry_failed_items` (line 150), which indexes
the retry list by the batch index and raises `IndexError`.  Evaluated
here: two items, the first succeeds, the second (index 1) fails twice —
the retry list has length 1, so collecting the failed retry of index 1
raises instead of returning a 2-slot list. -/
theorem process_batch_raises_on_failed_item :
    process_batch { maxRetries := 3, retryFailed := true } headOkFn [0, 1] =
      .error "IndexError: list index out of range" := rfl

/-- C5 counterexample: with `max_retries = 3`, a single always-failing item
is invoked with attempts `0, 1, 2` — three invocations in total, hence
only TWO retries after the initial attempt, not the three retries the
claim states ("retries it exactly max_retries times"): the guard
`attempts >= self.max_retries` (line 135) counts the initial attempt. -/
theorem retry_count_not_max_retries :
    ((process_batch { maxRetries := 3, retryFailed := true } alwaysFailFn [7]).map
      (fun r => (r.callLog, retryCalls r.callLog)) =
        .ok ([(0, 0), (0, 1), (0, 2)], 2)) ∧
    (2 : Nat) ≠ 3 := ⟨rfl, by decide⟩

/-- C5 (amended): with `max_retries = 3` and retries enabled, a single
always-failing item is attempted exactly 3 times in total (the initial
attempt plus `max_retries - 1 = 2` retries), then recorded as failed with
the error "Max retries (3) exceeded" while its result slot stays `None`;
and an item that fails its first attempt but succeeds on the 2nd of the 3
allowed attempts is recorded successful (`successful_items = 1`) with no
residual error entry and its result in place. -/
theorem batch_retry_amended {T U : Type} (t : T) (v : U)
    (f g : T → Nat → Except String U) (e0 e1 e2 e3 : String)
    (hf0 : f t 0 = .error e0) (hf1 : f t 1 = .error e1) (hf2 : f t 2 = .error e2)
    (hg0 : g t 0 = .error e3) (hg1 : g t 1 = .ok v) :
    process_batch { maxRetries := 3, retryFailed := true } f [t] =
      .ok ⟨[none],
        { totalItems := 1, processedItems := 1, successfulItems := 0, failedItems := 1,
          errors := [(0, "Max retries (3) exceeded")] },
        [(0, 0), (0, 1), (0, 2)]⟩ ∧
    process_batch { maxRetries := 3, retryFailed := true } g [t] =
      .ok ⟨[some v],
        { totalItems := 1, processedItems := 1, successfulItems := 1, failedItems := 0,
          errors := [] },
        [(0, 0), (0, 1)]⟩ := by
  constructor <;>
    simp [process_batch, initialPass, roundSubmit, roundCollect, retryLoop, handleError,
      bumpProcessed, listSet, listModify, List.enum, List.enumFrom, hf0, hf1, hf2, hg0, hg1,
      Except.map] <;>
    rfl

/-- Witness for `batch_retry_amended` at concrete functions. -/
theorem batch_retry_amended_witness :
    (alwaysFailFn 7 0 = .error "ValueError: boom" ∧
     alwaysFailFn 7 1 = .error "ValueError: boom" ∧
     alwaysFailFn 7 2 = .error "ValueError: boom" ∧
     secondTryFn 7 0 = .error "ValueError: boom" ∧
     secondTryFn 7 1 = .ok 42) ∧
    (process_batch { maxRetries := 3, retryFailed := true } alwaysFailFn [7] =
      .ok ⟨[none],
        { totalItems := 1, processedItems := 1, successfulItems := 0, failedItems := 1,
          errors := [(0, "Max retries (3) exceeded")] },
        [(0, 0), (0, 1), (0, 2)]⟩ ∧
     process_batch { maxRetries := 3, retryFailed := true } secondTryFn [7] =
      .ok ⟨[some 42],
        { totalItems := 1, processedItems := 1, successfulItems := 1, failedItems := 0,
          errors := [] },
        [(0, 0), (0, 1)]⟩) :=
  ⟨⟨rfl, rfl, rfl, rfl, rfl⟩,
   batch_retry_amended 7 42 alwaysFailFn secondTryFn
     "ValueError: boom" "ValueError: boom" "ValueError: boom" "ValueError: boom"
     rfl rfl rfl rfl rfl⟩

/-- Removing the (unique-keyed) member `e` by key shortens the list by
exactly one. -/
lemma length_filter_key {α : Type} (l : List (CacheEntry α)) (e : CacheEntry α)
    (hk : (l.map (fun x => x.key)).Nodup) (he : e ∈ l) :
    (l.filter (fun x => x.key != e.key)).length + 1 = l.length := by
  induction l with
  | nil => cases he
  | cons a rest ih =>
      simp only [List.map_cons, List.nodup_cons] at hk
      rcases List.mem_cons.mp he with he1 | he1
      · subst he1
        have hhead : (fun x => x.key != e.key) e = false := by simp
        have hrest : rest.filter (fun x => x.key != e.key) = rest := by
          apply List.filter_eq_self.mpr
          intro x hx
          have : x.key ≠ e.key := by
            intro hcontra
            exact hk.1 (by rw [← hcontra]; exact List.mem_map_of_mem _ hx)
          simpa using this
        simp [hhead, hrest]
      · have hne : a.key ≠ e.key := by
          intro hcontra
          exact hk.1 (by rw [hcontra]; exact List.mem_map_of_mem _ he1)
        have hhead : (fun x => x.key != e.key) a = true := by simpa using hne
        have := ih hk.2 he1
        simp only [List.filter_cons, hhead, if_true, List.length_cons]
        omega

/-- Once the loop guard fails, `evictLoop` is the identity at any fuel. -/
lemma evictLoop_stop {α : Type} (c : CacheManager α) (fuel : Nat)
    (h : ¬ (c.maxSize ≤ c.entries.length ∧ 0 < c.entries.length)) :
    CacheManager.evictLoop fuel c = c := by
  cases fuel with
  | zero => rfl
  | succ n => simp [CacheManager.evictLoop, h]

/-- C6: for a cache at its item cap (`len == max_size > 0`) with pairwise
distinct keys and access stamps, inserting a fresh key evicts exactly the
entry with the strictly oldest access stamp: that entry's key disappears,
every other key survives, the new key is bound, the size is back at
`max_size`, `evictions` is bumped once, and a subsequent `get` on the
evicted key returns `None` while bumping the miss counter by one. -/
theorem cache_set_evicts_lru {α : Type} (c : CacheManager α) (k : String) (v : α)
    (lru : CacheEntry α)
    (hfull : c.entries.length = c.maxSize)
    (hpos : 0 < c.maxSize)
    (hkeys : (c.entries.map (fun e => e.key)).Nodup)
    (hacc : (c.entries.map (fun e => e.access)).Nodup)
    (hfresh : ∀ e ∈ c.entries, e.key ≠ k)
    (hlru : CacheManager.lruEntry c.entries = some lru) :
    (∀ e ∈ c.entries, e ≠ lru → lru.access < e.access) ∧
    (∀ e ∈ (CacheManager.cset c k v).entries, e.key ≠ lru.key) ∧
    (k ∈ (CacheManager.cset c k v).entries.map (fun e => e.key)) ∧
    (∀ e ∈ c.entries, e.key ≠ lru.key →
      e.key ∈ (CacheManager.cset c k v).entries.map (fun e => e.key)) ∧
    (CacheManager.cset c k v).entries.length = c.maxSize ∧
    (CacheManager.cset c k v).evictions = c.evictions + 1 ∧
    (CacheManager.cget (CacheManager.cset c k v) lru.key).1 = none ∧
    ((CacheManager.cget (CacheManager.cset c k v) lru.key).2).misses =
      (CacheManager.cset c k v).misses + 1 := by
  have hlmem : lru ∈ c.entries := List.argmin_mem hlru
  have hklru : lru.key ≠ k := hfresh lru hlmem
  have holdest : ∀ e ∈ c.entries, e ≠ lru → lru.access < e.access := by
    intro e he hne
    have hle : lru.access ≤ e.access := List.le_of_mem_argmin he hlru
    have hne2 : lru.access ≠ e.access := by
      intro hcontra
      exact hne (List.inj_on_of_nodup_map hacc he hlmem hcontra.symm)
    exact lt_of_le_of_ne hle hne2
  have hevict : CacheManager.evictLRU c =
      { c with entries := c.entries.filter (fun x => x.key != lru.key),
               evictions := c.evictions + 1 } := by
    unfold CacheManager.evictLRU
    rw [hlru]
  have hlenF : (c.entries.filter (fun x => x.key != lru.key)).length + 1 = c.entries.length :=
    length_filter_key c.entries lru hkeys hlmem
  have hloop : CacheManager.evictLoop (c.entries.length + 1) c =
      { c with entries := c.entries.filter (fun x => x.key != lru.key),
               evictions := c.evictions + 1 } := by
    have hcond : c.maxSize ≤ c.entries.length ∧ 0 < c.entries.length := by
      constructor <;> omega
    rw [CacheManager.evictLoop, if_pos hcond, hevict]
    apply evictLoop_stop
    intro hcontra
    simp only at hcontra
    omega
  have hFmem : ∀ e ∈ c.entries.filter (fun x => x.key != lru.key),
      e ∈ c.entries ∧ e.key ≠ lru.key := by
    intro e he
    have := List.mem_filter.mp he
    exact ⟨this.1, by simpa using this.2⟩
  have hany : (c.entries.filter (fun x => x.key != lru.key)).any (fun e => e.key == k) =
      false := by
    rw [List.any_eq_false]
    intro e he
    have := hfresh e (hFmem e he).1
    simpa using this
  have hset : CacheManager.cset c k v =
      { c with entries := c.entries.filter (fun x => x.key != lru.key) ++ [⟨k, v, c.clock⟩],
               clock := c.clock + 1, evictions := c.evictions + 1 } := by
    unfold CacheManager.cset
    rw [hloop]
    simp only [hany, Bool.false_eq_true, if_false]
  have hnolru : ∀ e ∈ (CacheManager.cset c k v).entries, e.key ≠ lru.key := by
    rw [hset]
    intro e he
    simp only [List.mem_append, List.mem_singleton] at he
    rcases he with he | he
    · exact (hFmem e he).2
    · rw [he]
      exact fun hcontra => hklru hcontra.symm
  have hfind : (CacheManager.cset c k v).entries.find? (fun e => e.key == lru.key) = none := by
    rw [List.find?_eq_none]
    intro e he
    simpa using hnolru e he
  refine ⟨holdest, hnolru, ?_, ?_, ?_, ?_, ?_, ?_⟩
  · rw [hset]
    simp
  · intro e he hne
    rw [hset]
    refine List.mem_map_of_mem _ ?_
    simp only [List.mem_append, List.mem_singleton]
    left
    exact List.mem_filter.mpr ⟨he, by simpa using hne⟩
  · rw [hset]
    simp only [List.length_append, List.length_singleton]
    omega
  · rw [hset]
  · unfold CacheManager.cget
    rw [hfind]
  · unfold CacheManager.cget
    rw [hfind]

/-- Witness for `cache_set_evicts_lru`: inserting "c" into the full
`cacheW` evicts "a" (oldest access stamp `0`), and `get "a"` afterwards
misses. -/
theorem cache_set_evicts_lru_witness :
    (cacheW.entries.length = cacheW.maxSize ∧ 0 < cacheW.maxSize ∧
     (cacheW.entries.map (fun e => e.key)).Nodup ∧
     (cacheW.entries.map (fun e => e.access)).Nodup ∧
     (∀ e ∈ cacheW.entries, e.key ≠ "c") ∧
     CacheManager.lruEntry cacheW.entries = some ⟨"a", 10, 0⟩) ∧
    ((∀ e ∈ cacheW.entries, e ≠ ⟨"a", 10, 0⟩ → (0 : Nat) < e.access) ∧
     (∀ e ∈ (CacheManager.cset cacheW "c" 12).entries, e.key ≠ "a") ∧
     ("c" ∈ (CacheManager.cset cacheW "c" 12).entries.map (fun e => e.key)) ∧
     (∀ e ∈ cacheW.entries, e.key ≠ "a" →
       e.key ∈ (CacheManager.cset cacheW "c" 12).entries.map (fun e => e.key)) ∧
     (CacheManager.cset cacheW "c" 12).entries.length = cacheW.maxSize ∧
     (CacheManager.cset cacheW "c" 12).evictions = cacheW.evictions + 1 ∧
     (CacheManager.cget (CacheManager.cset cacheW "c" 12) "a").1 = none ∧
     ((CacheManager.cget (CacheManager.cset cacheW "c" 12) "a").2).misses =
       (CacheManager.cset cacheW "c" 12).misses + 1) :=
  ⟨⟨rfl, by decide, by decide, by decide, by decide, by decide⟩,
    cache_set_evicts_lru cacheW "c" 12 ⟨"a", 10, 0⟩ rfl (by decide) (by decide) (by decide)
      (by decide) (by decide)⟩

lemma chunkAux_ne_nil_input {α : Type} (k fuel : Nat) (l : List α)
    (h : chunkAux k fuel l ≠ []) : l ≠ [] := by
  intro hcontra
  subst hcontra
  cases fuel <;> exact h rfl

lemma chunkAux_flatten {α : Type} (k : Nat) (hk : 0 < k) :
    ∀ (fuel : Nat) (l : List α), l.length ≤ fuel → (chunkAux k fuel l).flatten = l := by
  intro fuel
  induction fuel with
  | zero =>
      intro l hl
      have : l = [] := List.eq_nil_of_length_eq_zero (by omega)
      subst this
      rfl
  | succ n ih =>
      intro l hl
      cases l with
      | nil => rfl
      | cons x xs =>
          simp only [chunkAux, List.flatten_cons]
          rw [ih ((x :: xs).drop k) (by simp only [List.length_drop, List.length_cons] at hl ⊢; omega)]
          exact List.take_append_drop k (x :: xs)

lemma chunkAux_mem_size {α : Type} (k : Nat) (hk : 0 < k) :
    ∀ (fuel : Nat) (l : List α), l.length ≤ fuel →
      ∀ c ∈ chunkAux k fuel l, c ≠ [] ∧ c.length ≤ k := by
  intro fuel
  induction fuel with
  | zero =>
      intro l hl c hc
      have : l = [] := List.eq_nil_of_length_eq_zero (by omega)
      subst this
      cases hc
  | succ n ih =>
      intro l hl c hc
      cases l with
      | nil => cases hc
      | cons x xs =>
          simp only [chunkAux, List.mem_cons] at hc
          rcases hc with hc | hc
          · subst hc
            constructor
            · cases k with
              | zero => omega
              | succ m => simp [List.take_cons]
            · simp [List.length_take]
          · exact ih ((x :: xs).drop k) (by simp only [List.length_drop, List.length_cons] at hl ⊢; omega) c hc

lemma chunkAux_dropLast_size {α : Type} (k : Nat) (hk : 0 < k) :
    ∀ (fuel : Nat) (l : List α), l.length ≤ fuel →
      ∀ c ∈ (chunkAux k fuel l).dropLast, c.length = k := by
  intro fuel
  induction fuel with
  | zero =>
      intro l hl c hc
      have : l = [] := List.eq_nil_of_length_eq_zero (by omega)
      subst this
      cases hc
  | succ n ih =>
      intro l hl c hc
      cases l with
      | nil => cases hc
      | cons x xs =>
          simp only [chunkAux] at hc
          cases hrest : chunkAux k n ((x :: xs).drop k) with
          | nil => rw [hrest] at hc; cases hc
          | cons r rs =>
              rw [hrest, List.dropLast_cons_of_ne_nil (by simp), List.mem_cons] at hc
              rcases hc with hc | hc
              · subst hc
                have hne : ((x :: xs).drop k) ≠ [] := by
                  apply chunkAux_ne_nil_input k n
                  rw [hrest]
                  simp
                have hlen : k < xs.length + 1 := by
                  by_contra hcontra
                  exact hne (List.drop_eq_nil_of_le (by simp [List.length_cons]; omega))
                simp [List.length_take, List.length_cons]
                omega
              · rw [← hrest] at hc
                exact ih ((x :: xs).drop k) (by simp only [List.length_drop, List.length_cons] at hl ⊢; omega) c hc

/-- C7: with a positive `chunk_size`, strategy `size` splits a list into
contiguous chunks whose concatenation is the original list: every chunk
is nonempty with at most `chunk_size` items, and every chunk except
possibly the last has exactly `chunk_size` items. -/
theorem chunk_dataset_size_spec {α : Type} (k : Nat) (data : List α)
    (chunks : List (List α)) (hk : 0 < k)
    (h : chunk_dataset_size k data = .ok chunks) :
    chunks.flatten = data ∧
    (∀ c ∈ chunks, c ≠ [] ∧ c.length ≤ k) ∧
    (∀ c ∈ chunks.dropLast, c.length = k) := by
  unfold chunk_dataset_size at h
  rw [if_neg (by omega)] at h
  cases h
  exact ⟨chunkAux_flatten k hk data.length data (le_refl _),
    chunkAux_mem_size k hk data.length data (le_refl _),
    chunkAux_dropLast_size k hk data.length data (le_refl _)⟩

/-- Witness for `chunk_dataset_size_spec`: a 25-item list with
`chunk_size = 10` yields chunks of lengths `[10, 10, 5]` (the in-particular
case named by the claim), and the spec conclusions hold for it. -/
theorem chunk_dataset_size_spec_witness :
    (0 < 10 ∧ chunk_dataset_size 10 (List.range 25) = .ok (chunkAux 10 25 (List.range 25))) ∧
    ((chunkAux 10 25 (List.range 25)).map (fun c => c.length) = [10, 10, 5]) ∧
    ((chunkAux 10 25 (List.range 25)).flatten = List.range 25 ∧
     (∀ c ∈ chunkAux 10 25 (List.range 25), c ≠ [] ∧ c.length ≤ 10) ∧
     (∀ c ∈ (chunkAux 10 25 (List.range 25)).dropLast, c.length = 10)) :=
  ⟨⟨by decide, rfl⟩, by decide,
    chunk_dataset_size_spec 10 (List.range 25) (chunkAux 10 25 (List.range 25))
      (by decide) rfl⟩

/-- C8 counterexample: two one-element chunks whose processing is the
identity; when the second chunk completes first (`order = [1, 0]`, a
permutation of the submission schedule `range 2`), the returned list is
`[20, 10]` — the completion-order concatenation — and not the
submission-order concatenation `[10, 20]` the claim requires. -/
theorem process_chunks_not_submission_order :
    ([1, 0].Perm (List.range 2)) ∧
    process_chunks [[10], [20]] (fun c => some c) [1, 0] = [20, 10] ∧
    process_chunks [[10], [20]] (fun c => some c) (List.range 2) = [10, 20] ∧
    ([20, 10] : List Nat) ≠ [10, 20] := by
  refine ⟨by decide, rfl, rfl, by decide⟩

lemma foldl_append_eq_flatten {β : Type} (g : Nat → List β) :
    ∀ (order : List Nat) (acc : List β),
      order.foldl (fun acc i => acc ++ g i) acc = acc ++ (order.map g).flatten := by
  intro order
  induction order with
  | nil => intro acc; simp
  | cons i rest ih =>
      intro acc
      simp only [List.foldl_cons, List.map_cons, List.flatten_cons, ih, List.append_assoc]

lemma flatten_perm_of_perm {β : Type} {l₁ l₂ : List (List β)} (h : l₁.Perm l₂) :
    l₁.flatten.Perm l₂.flatten := by
  induction h with
  | nil => exact List.Perm.refl _
  | cons x _ ih => simpa using ih.append_left x
  | swap x y l =>
      simp only [List.flatten_cons]
      rw [← List.append_assoc, ← List.append_assoc]
      exact (List.perm_append_comm).append_right _
  | trans _ _ ih1 ih2 => exact ih1.trans ih2

lemma range_map_chunkResult {α β : Type} (f : List α → Option (List β)) :
    ∀ chunks : List (List α),
      (List.range chunks.length).map (chunkResult chunks f) =
        chunks.map (fun c => (f c).getD []) := by
  intro chunks
  induction chunks with
  | nil => rfl
  | cons c rest ih =>
      have hsucc : ∀ i, chunkResult (c :: rest) f (i + 1) = chunkResult rest f i :=
        fun i => rfl
      simp only [List.length_cons, List.range_succ_eq_map, List.map_cons, List.map_map]
      refine congrArg₂ List.cons rfl ?_
      rw [← ih]
      apply List.map_congr_left
      intro i _
      exact hsucc i

/-- C8 (amended): the list `process_chunks` returns is the concatenation of
the per-chunk result lists in COMPLETION order.  Consequently, for any
completion schedule that is a permutation of the submission schedule, the
output is a permutation of the submission-order concatenation (same
results, possibly reordered chunk-wise), and it equals the
submission-order concatenation exactly when the chunks complete in
submission order. -/
theorem process_chunks_completion_order {α β : Type} (chunks : List (List α))
    (f : List α → Option (List β)) (order : List Nat)
    (hperm : order.Perm (List.range chunks.length)) :
    process_chunks chunks f order = (order.map (chunkResult chunks f)).flatten ∧
    (process_chunks chunks f order).Perm
      ((chunks.map (fun c => (f c).getD [])).flatten) ∧
    process_chunks chunks f (List.range chunks.length) =
      (chunks.map (fun c => (f c).getD [])).flatten := by
  have heq : ∀ ord : List Nat,
      process_chunks chunks f ord = (ord.map (chunkResult chunks f)).flatten := by
    intro ord
    unfold process_chunks
    rw [foldl_append_eq_flatten]
    simp
  refine ⟨heq order, ?_, ?_⟩
  · rw [heq order, ← range_map_chunkResult f chunks]
    exact flatten_perm_of_perm (hperm.map _)
  · rw [heq (List.range chunks.length), range_map_chunkResult f chunks]

/-- Witness for `process_chunks_completion_order` at the two-chunk example
with the reversed completion schedule. -/
theorem process_chunks_completion_order_witness :
    ([1, 0].Perm (List.range 2)) ∧
    (process_chunks [[10], [20]] (fun c => some c) [1, 0] =
      (([1, 0].map (chunkResult [[10], [20]] (fun c => some c)))).flatten ∧
     (process_chunks [[10], [20]] (fun c => some c) [1, 0]).Perm
       (([[10], [20]].map (fun c => (some c).getD [])).flatten) ∧
     process_chunks [[10], [20]] (fun c => some c) (List.range 2) =
       (([[10], [20]].map (fun c => (some c).getD []))).flatten) :=
  ⟨by decide,
    process_chunks_completion_order [[10], [20]] (fun c => some c) [1, 0] (by decide)⟩

/-- C1: the spec requires `process_pdf` to hash the raw bytes and
short-circuit duplicate uploads before any expensive work, so a
byte-identical second upload returns the same document with extraction
run only once.  The code cannot do this: its dedup check is unreachable
dead code.  Evaluated on a byte-identical second upload: extraction runs
twice (not once), a second distinct document is created, the returned
references differ, and neither document even carries a hash for a later
lookup to find. -/
theorem process_pdf_no_dedup :
    (process_pdf [37, 80, 68, 70] "a.pdf"
        (process_pdf [37, 80, 68, 70] "a.pdf" ⟨[], 0, 0⟩).2).2.extractionRuns = 2 ∧
    (process_pdf [37, 80, 68, 70] "a.pdf" ⟨[], 0, 0⟩).1.id ≠
      (process_pdf [37, 80, 68, 70] "a.pdf"
        (process_pdf [37, 80, 68, 70] "a.pdf" ⟨[], 0, 0⟩).2).1.id ∧
    (process_pdf [37, 80, 68, 70] "a.pdf"
        (process_pdf [37, 80, 68, 70] "a.pdf" ⟨[], 0, 0⟩).2).2.docs.length = 2 ∧
    (∀ d ∈ (process_pdf [37, 80, 68, 70] "a.pdf"
        (process_pdf [37, 80, 68, 70] "a.pdf" ⟨[], 0, 0⟩).2).2.docs, d.fileHash = none) := by
  refine ⟨rfl, by decide, rfl, by decide⟩

end Propos4l
